import Mathlib

/-!
Verification of the image cache / preloading / grouping subsystem of
`image_group_navigator`.  Every definition below is a shallow embedding of
the corresponding Python code in `src/image_group_navigator_pyside6+++.py`
(and `src/image_group_navigator.py` for the shared pure helpers).
-/

namespace ImageGroupNav

/-!
## Decoded-image cache (`ImageCache`, lines 17-44)

The Python class keeps an `OrderedDict`; we model it as an association list
in recency order, least-recently-used first, most-recently-used last.
`move_to_end` becomes "remove the entry and append it", `popitem(last=False)`
becomes "drop the head".
-/

structure ImageCache (V : Type) where
  max_size : Nat
  cache : List (String × V)
deriving Repr

/-- Python `filepath in self.cache` / `self.cache[filepath]`: first (unique)
entry with the given key. -/
def lookupEntry {V : Type} : List (String × V) → String → Option V
  | [], _ => none
  | (k, v) :: rest, key => if k = key then some v else lookupEntry rest key

/-- `ImageCache.get`: on a hit, move the entry to the most-recent end and
return its value; on a miss return `None` and leave the cache unchanged. -/
def ImageCache.get {V : Type} (c : ImageCache V) (k : String) :
    Option V × ImageCache V :=
  match lookupEntry c.cache k with
  | some v =>
    (some v, { c with cache := c.cache.filter (fun q => q.1 != k) ++ [(k, v)] })
  | none => (none, c)

/-- `ImageCache.put`: if the key is already present the entry is only moved
to the most-recent end (`move_to_end`) and its stored value is kept;
otherwise the pair is inserted at the end and, if the size now exceeds
`max_size`, the least-recently-used entry (the head) is popped. -/
def ImageCache.put {V : Type} (c : ImageCache V) (k : String) (v : V) :
    ImageCache V :=
  match lookupEntry c.cache k with
  | some w =>
    { c with cache := c.cache.filter (fun q => q.1 != k) ++ [(k, w)] }
  | none =>
    if c.max_size < c.cache.length + 1 then
      { c with cache := (c.cache ++ [(k, v)]).drop 1 }
    else
      { c with cache := c.cache ++ [(k, v)] }

/-- `ImageCache.clear`. -/
def ImageCache.clear {V : Type} (c : ImageCache V) : ImageCache V :=
  { c with cache := [] }

/-- A client-visible cache operation. -/
inductive CacheOp (V : Type) where
  | get (k : String)
  | put (k : String) (v : V)
  | clear
deriving Repr

def applyOp {V : Type} (c : ImageCache V) : CacheOp V → ImageCache V
  | .get k => (c.get k).2
  | .put k v => c.put k v
  | .clear => c.clear

/-- Run a whole sequence of cache operations. -/
def runOps {V : Type} (c : ImageCache V) (ops : List (CacheOp V)) : ImageCache V :=
  ops.foldl applyOp c

/-- Insert a list of key/value pairs one `put` at a time. -/
def putList {V : Type} (c : ImageCache V) (ps : List (String × V)) : ImageCache V :=
  ps.foldl (fun c p => c.put p.1 p.2) c

/-!
## Natural-order sort key (`natural_key`, pyside6+++ lines 1843-1853 and
`image_group_navigator.py` lines 9-16)

Python does `[try_int(c) for c in re.split(r"(\d+)", s)]`: the string is cut
at maximal digit runs, the runs become `int` tokens and the (digit-free)
pieces between them stay strings, including an empty leading/trailing piece.
-/

inductive NatToken where
  | str (s : List Char)
  | num (n : Nat)
deriving Repr, DecidableEq

/-- Value of a digit run, as computed by Python `int`. -/
def digitsVal (ds : List Char) : Nat :=
  ds.foldl (fun n c => 10 * n + (c.toNat - 48)) 0

/-- Token stream of `re.split(r"(\d+)", s)` followed by `try_int`.  The flag
says whether we are inside a digit run; `acc` is the current run, reversed. -/
def goSplit : List Char → Bool → List Char → List NatToken
  | [], false, acc => [NatToken.str acc.reverse]
  | [], true, acc => [NatToken.num (digitsVal acc.reverse), NatToken.str []]
  | c :: cs, false, acc =>
    if c.isDigit then NatToken.str acc.reverse :: goSplit cs true [c]
    else goSplit cs false (c :: acc)
  | c :: cs, true, acc =>
    if c.isDigit then goSplit cs true (c :: acc)
    else NatToken.num (digitsVal acc.reverse) :: goSplit cs false [c]

/-- `ImageGroupNavigator.natural_key`. -/
def natural_key (s : String) : List NatToken :=
  goSplit s.data false []

/-- Three-way comparison on `Nat` (Python `int` comparison). -/
def cmpNat (m n : Nat) : Ordering :=
  if m < n then Ordering.lt else if n < m then Ordering.gt else Ordering.eq

/-- Python string comparison: lexicographic on code points, a strict prefix
sorts first. -/
def cmpCharList : List Char → List Char → Ordering
  | [], [] => Ordering.eq
  | [], _ :: _ => Ordering.lt
  | _ :: _, [] => Ordering.gt
  | a :: as, b :: bs =>
    match cmpNat a.toNat b.toNat with
    | Ordering.eq => cmpCharList as bs
    | o => o

/-- Python comparison of two key tokens.  Comparing an `int` token with a
`str` token raises `TypeError`, modelled as `none`. -/
def cmpTok : NatToken → NatToken → Option Ordering
  | NatToken.str a, NatToken.str b => some (cmpCharList a b)
  | NatToken.num a, NatToken.num b => some (cmpNat a b)
  | _, _ => none

/-- Python list comparison on keys: element-wise, first difference decides,
a strict prefix sorts first; `none` when a mixed comparison would raise. -/
def cmpKey : List NatToken → List NatToken → Option Ordering
  | [], [] => some Ordering.eq
  | [], _ :: _ => some Ordering.lt
  | _ :: _, [] => some Ordering.gt
  | a :: as, b :: bs =>
    match cmpTok a b with
    | none => none
    | some Ordering.eq => cmpKey as bs
    | some o => some o

/-- "key a sorts no later than key b", the order `sort(key=natural_key)`
sorts by. -/
def keyLEb (a b : String) : Bool :=
  cmpKey (natural_key a) (natural_key b) != some Ordering.gt

def keyLE (a b : String) : Prop := keyLEb a b = true

instance : DecidableRel keyLE :=
  fun a b => inferInstanceAs (Decidable (keyLEb a b = true))

/-- Python `sorted(..., key=natural_key)` / `list.sort(key=natural_key)`
(a stable sort by the natural key). -/
def sortByNatKey (l : List String) : List String :=
  List.insertionSort keyLE l

/-- Is a token a string token? -/
def isStrTok : NatToken → Bool
  | NatToken.str _ => true
  | NatToken.num _ => false

/-- Strict alternation of token kinds: with flag `false` the list reads
str, num, str, num, ...; with `true` it reads num, str, num, ... -/
def altFrom : Bool → List NatToken → Bool
  | _, [] => true
  | false, NatToken.str _ :: ts => altFrom true ts
  | true, NatToken.num _ :: ts => altFrom false ts
  | _, _ => false

/-!
## Grouping index (`scan_folder` lines 1561-1569, `extract_middle_number`
lines 1855-1861, `get_middle_groups` lines 1863-1869)

Python dicts preserve insertion order; `setdefault(key, []).append(f)` is
modelled on an association list by `addEntry`.
-/

/-- `d.setdefault(k, []).append(f)` on an insertion-ordered dict. -/
def addEntry (d : List (String × List String)) (k : String) (f : String) :
    List (String × List String) :=
  match d with
  | [] => [(k, [f])]
  | (k', fs) :: rest =>
    if k' = k then (k', fs ++ [f]) :: rest else (k', fs) :: addEntry rest k f

/-- Group a flat list by a key function, preserving encounter order. -/
def groupByKey (key : String → String) (fl : List String) :
    List (String × List String) :=
  fl.foldl (fun d f => addEntry d (key f) f) []

/-- Python `str.split(sep)` for a one-character separator. -/
def splitOnChar (sep : Char) : List Char → List (List Char)
  | [] => [[]]
  | c :: rest =>
    match splitOnChar sep rest with
    | [] => [[]]
    | g :: gs => if c = sep then [] :: g :: gs else (c :: g) :: gs

/-- `filename.split("_")[0]`: the top-group key. -/
def topKeyOf (s : String) : String :=
  String.mk ((splitOnChar '_' s.data).headD [])

/-- `ImageGroupNavigator.extract_middle_number`: the part between the first
and second underscore when the name has at least three parts, else `""`. -/
def extract_middle_number (s : String) : String :=
  match splitOnChar '_' s.data with
  | _ :: p :: _ :: _ => String.mk p
  | _ => ""

/-- `ImageGroupNavigator.get_middle_groups`. -/
def get_middle_groups (fl : List String) : List (String × List String) :=
  groupByKey extract_middle_number fl

/-- Dict read `d.get(k, [])`. -/
def bucketOf (d : List (String × List String)) (k : String) : List String :=
  match d with
  | [] => []
  | (k', fs) :: rest => if k' = k then fs else bucketOf rest k

/-- The dict's key list, in insertion order. -/
def keysOf (d : List (String × List String)) : List String :=
  d.map Prod.fst

/-- `scan_folder`'s `group_dict`: group by top key, then sort every group by
the natural key. -/
def scan_folder_groups (files : List String) : List (String × List String) :=
  (groupByKey topKeyOf files).map (fun p => (p.1, sortByNatKey p.2))

/-- `on_left_select`: middle keys in natural-key order, buckets concatenated
(the order in which the UI walks the files of one top group). -/
def middleConcat (fl : List String) : List String :=
  ((sortByNatKey (keysOf (get_middle_groups fl))).map
    (bucketOf (get_middle_groups fl))).flatten

/-!
## Navigation cursor (`FullScreenViewer.keyPressEvent` lines 602-684 and the
`move_to_*` helpers, lines 686-755)

The window state seen by the viewer is (left row, middle row, file row); the
group structure is the three-level list `Groups`.
-/

structure Cursor where
  top : Nat
  mid : Nat
  idx : Nat
deriving Repr, DecidableEq

/-- top group index → list of middle groups → file list. -/
abbrev Groups := List (List (List String))

/-- `middle_list.count()` for a given top row. -/
def numMids (g : Groups) (t : Nat) : Nat := (g.getD t []).length

/-- `get_all_files_in_current_group`. -/
def filesAt (g : Groups) (t m : Nat) : List String := (g.getD t []).getD m []

/-- `move_to_next_left_group` (lines 720-736): advance the left row if one
remains, select the first middle group and the first file; else fail. -/
def move_to_next_left_group (g : Groups) (s : Cursor) : Option Cursor :=
  if s.top < g.length - 1 then some ⟨s.top + 1, 0, 0⟩ else none

/-- `move_to_prev_left_group` (lines 738-755): go to the previous left row,
select its last middle group and the first file. -/
def move_to_prev_left_group (g : Groups) (s : Cursor) : Option Cursor :=
  if 0 < s.top then some ⟨s.top - 1, numMids g (s.top - 1) - 1, 0⟩ else none

/-- `move_to_next_middle_group` (lines 686-701). -/
def move_to_next_middle_group (g : Groups) (s : Cursor) : Option Cursor :=
  if s.mid < numMids g s.top - 1 then some ⟨s.top, s.mid + 1, 0⟩
  else move_to_next_left_group g s

/-- `move_to_prev_middle_group` (lines 703-718). -/
def move_to_prev_middle_group (g : Groups) (s : Cursor) : Option Cursor :=
  if 0 < s.mid then some ⟨s.top, s.mid - 1, 0⟩
  else move_to_prev_left_group g s

/-- The `Key_Right` branch of `keyPressEvent` (lines 646-663): step to the
next file, spill into the next middle/left group, and if there is none,
reset `current_index` to 0 (the current group's first file). -/
def pressRight (g : Groups) (s : Cursor) : Cursor :=
  if (filesAt g s.top s.mid).length ≤ s.idx + 1 then
    match move_to_next_middle_group g s with
    | some s2 => s2
    | none => ⟨s.top, s.mid, 0⟩
  else ⟨s.top, s.mid, s.idx + 1⟩

/-- The `Key_Left` branch of `keyPressEvent` (lines 665-682): step to the
previous file, spill into the previous middle/left group, and if there is
none, set `current_index` to the current group's last file. -/
def pressLeft (g : Groups) (s : Cursor) : Cursor :=
  if s.idx = 0 then
    match move_to_prev_middle_group g s with
    | some s2 => s2
    | none => ⟨s.top, s.mid, (filesAt g s.top s.mid).length - 1⟩
  else ⟨s.top, s.mid, s.idx - 1⟩

/-!
## Animation player (`_next_apng_frame`, lines 574-586 and 1048-1060)

Frames are (pixmap, duration-in-ms) pairs, exactly the dicts the Python code
stores; `interval` is the timer interval, `active` whether it runs.
-/

structure ApngPlayer (P : Type) where
  frames : List (P × Nat)
  index : Nat
  current : Option P
  interval : Nat
  active : Bool
deriving Repr

/-- `_next_apng_frame`: with no frames, stop the timer; otherwise advance to
`(index + 1) % len(frames)`, display that frame and re-arm the timer with
that frame's own duration. -/
def next_apng_frame {P : Type} (p : ApngPlayer P) : ApngPlayer P :=
  if p.frames.isEmpty then { p with active := false }
  else
    match p.frames.get? ((p.index + 1) % p.frames.length) with
    | some f =>
      { p with index := (p.index + 1) % p.frames.length,
               current := some f.1, interval := f.2 }
    | none => { p with index := (p.index + 1) % p.frames.length }

/-!
## Background preloader (`ImagePreloader.run`, lines 72-105;
`_is_apng` lines 107-113; `_load_apng_frames` lines 115-136)

The effects of one loop iteration are modelled against an abstract
environment describing the file system and the image library: which decode
steps raise, which produce null/empty results and what the decoded data is.
Pixmaps are opaque `Nat`s, animation frames are (pixmap, duration) pairs.
-/

inductive Decoded where
  | still (pix : Nat)
  | anim (frames : List (Nat × Nat))
deriving Repr, DecidableEq

structure PreloadEnv where
  fileExists : String → Bool
  extOf : String → String
  apngCheckRaises : String → Bool
  apngCheckVal : String → Bool
  apngLoadRaises : String → Bool
  apngLoadFrames : String → List (Nat × Nat)
  pixmapRaises : String → Bool
  pixmapNull : String → Bool
  pixmapVal : String → Nat

/-- `_is_apng`: any exception inside is swallowed and reported as `False`. -/
def is_apng (env : PreloadEnv) (p : String) : Bool :=
  if env.apngCheckRaises p then false else env.apngCheckVal p

/-- `_load_apng_frames`: `None` on any exception or when no frame was
decoded, otherwise the full eagerly-decoded frame list. -/
def load_apng_frames (env : PreloadEnv) (p : String) :
    Option (List (Nat × Nat)) :=
  if env.apngLoadRaises p then none
  else if (env.apngLoadFrames p).isEmpty then none
  else some (env.apngLoadFrames p)

/-- The body of one `run`-loop iteration for a popped path: skip silently if
the file vanished; on the APNG branch emit the frames when decode gives
some; on the still branch emit the pixmap when it is not null; an exception
escapes as `Except.error`. -/
def worker_body (env : PreloadEnv) (p : String) :
    Except String (List (String × Decoded)) :=
  if !env.fileExists p then Except.ok []
  else if env.extOf p == ".png" && is_apng env p then
    match load_apng_frames env p with
    | some fs => Except.ok [(p, Decoded.anim fs)]
    | none => Except.ok []
  else if env.pixmapRaises p then Except.error "image load error"
  else if env.pixmapNull p then Except.ok []
  else Except.ok [(p, Decoded.still (env.pixmapVal p))]

/-- One full iteration: the `except Exception` handler turns an escaped
exception into a printed log line and the loop continues.  Result: emitted
`imageLoaded` events and printed log lines. -/
def process_item (env : PreloadEnv) (p : String) :
    List (String × Decoded) × List String :=
  match worker_body env p with
  | Except.ok evs => (evs, [])
  | Except.error e => ([], [e])

/-- The worker loop over the queue contents: a `None` sentinel breaks the
loop, every real path goes through `process_item` and the loop continues. -/
def run_worker (env : PreloadEnv) :
    List (Option String) → List (String × Decoded) × List String
  | [] => ([], [])
  | none :: _ => ([], [])
  | some p :: rest =>
    ((process_item env p).1 ++ (run_worker env rest).1,
     (process_item env p).2 ++ (run_worker env rest).2)

/-- An environment where every path exists, is a `.png` detected as APNG,
and the APNG frame decode raises inside `_load_apng_frames`. -/
def envApngRaise : PreloadEnv :=
  PreloadEnv.mk (fun _ => true) (fun _ => ".png") (fun _ => false)
    (fun _ => true) (fun _ => true) (fun _ => []) (fun _ => false)
    (fun _ => false) (fun _ => 0)

/-- An environment where every path exists, is a `.jpg`, and decodes to the
still pixmap `7`. -/
def envStillOk : PreloadEnv :=
  PreloadEnv.mk (fun _ => true) (fun _ => ".jpg") (fun _ => false)
    (fun _ => false) (fun _ => false) (fun _ => []) (fun _ => false)
    (fun _ => false) (fun _ => 7)

section CacheLemmas

variable {V : Type}

theorem lookupEntry_eq_none {d : List (String × V)} {k : String} :
    lookupEntry d k = none ↔ k ∉ d.map Prod.fst := by
  induction d with
  | nil => simp [lookupEntry]
  | cons p rest ih =>
    obtain ⟨k', v⟩ := p
    by_cases h : k' = k <;> simp [lookupEntry, h, ih, Ne.symm]

theorem lookupEntry_append_of_notMem {A B : List (String × V)} {k : String}
    (h : k ∉ A.map Prod.fst) : lookupEntry (A ++ B) k = lookupEntry B k := by
  induction A with
  | nil => rfl
  | cons p rest ih =>
    obtain ⟨k', v⟩ := p
    simp only [List.map_cons, List.mem_cons] at h
    push_neg at h
    have hne : ¬(k' = k) := fun hh => h.1 hh.symm
    simpa [lookupEntry, hne] using ih h.2

theorem filter_ne_of_notMem {A : List (String × V)} {k : String}
    (h : k ∉ A.map Prod.fst) : A.filter (fun q => q.1 != k) = A := by
  induction A with
  | nil => rfl
  | cons p rest ih =>
    obtain ⟨k', v⟩ := p
    simp only [List.map_cons, List.mem_cons] at h
    push_neg at h
    have hne : ¬(k' = k) := fun hh => h.1 hh.symm
    simp [List.filter_cons, bne_iff_ne, hne, ih h.2]

theorem filter_length_lt_of_lookup {d : List (String × V)} {k : String} {v : V}
    (h : lookupEntry d k = some v) :
    (d.filter (fun q => q.1 != k)).length < d.length := by
  induction d with
  | nil => simp [lookupEntry] at h
  | cons p rest ih =>
    obtain ⟨k', w⟩ := p
    by_cases hk : k' = k
    · subst hk
      simp only [List.filter_cons, bne_self_eq_false, Bool.false_eq_true,
        if_false, List.length_cons]
      exact Nat.lt_succ_of_le (List.length_filter_le _ _)
    · simp only [lookupEntry, if_neg hk] at h
      simpa [List.filter_cons, bne_iff_ne, hk] using Nat.succ_lt_succ (ih h)

theorem put_max_size (c : ImageCache V) (k : String) (v : V) :
    (c.put k v).max_size = c.max_size := by
  unfold ImageCache.put
  cases lookupEntry c.cache k with
  | none => by_cases h : c.max_size < c.cache.length + 1 <;> simp [h]
  | some w => rfl

theorem put_fresh_cache (c : ImageCache V) (k : String) (v : V)
    (h : lookupEntry c.cache k = none) :
    (c.put k v).cache =
      if c.max_size < c.cache.length + 1 then (c.cache ++ [(k, v)]).drop 1
      else c.cache ++ [(k, v)] := by
  unfold ImageCache.put
  rw [h]
  by_cases hc : c.max_size < c.cache.length + 1 <;> simp [hc]

theorem put_hit_cache (c : ImageCache V) (k : String) (v w : V)
    (h : lookupEntry c.cache k = some w) :
    (c.put k v).cache = c.cache.filter (fun q => q.1 != k) ++ [(k, w)] := by
  unfold ImageCache.put
  rw [h]

theorem applyOp_max_size (c : ImageCache V) (op : CacheOp V) :
    (applyOp c op).max_size = c.max_size := by
  cases op with
  | get k =>
    simp only [applyOp, ImageCache.get]
    cases lookupEntry c.cache k <;> rfl
  | put k v => exact put_max_size c k v
  | clear => rfl

theorem applyOp_length_le (c : ImageCache V) (op : CacheOp V)
    (h : c.cache.length ≤ c.max_size) :
    (applyOp c op).cache.length ≤ c.max_size := by
  cases op with
  | get k =>
    simp only [applyOp, ImageCache.get]
    cases hv : lookupEntry c.cache k with
    | none => exact h
    | some v =>
      simp only [List.length_append, List.length_cons, List.length_nil]
      have := filter_length_lt_of_lookup hv
      omega
  | put k v =>
    simp only [applyOp]
    cases hv : lookupEntry c.cache k with
    | none =>
      rw [put_fresh_cache c k v hv]
      by_cases hc : c.max_size < c.cache.length + 1
      · simp only [if_pos hc, List.length_drop, List.length_append,
          List.length_cons, List.length_nil]
        omega
      · simp only [if_neg hc, List.length_append, List.length_cons,
          List.length_nil]
        omega
    | some w =>
      rw [put_hit_cache c k v w hv]
      simp only [List.length_append, List.length_cons, List.length_nil]
      have := filter_length_lt_of_lookup hv
      omega
  | clear => simp [applyOp, ImageCache.clear]

theorem runOps_length_le (ops : List (CacheOp V)) (c : ImageCache V)
    (h : c.cache.length ≤ c.max_size) :
    (runOps c ops).cache.length ≤ (runOps c ops).max_size := by
  induction ops generalizing c with
  | nil => exact h
  | cons op rest ih =>
    have h1 : (applyOp c op).cache.length ≤ (applyOp c op).max_size := by
      rw [applyOp_max_size]; exact applyOp_length_le c op h
    exact ih _ h1

/-- Putting a list of keys that are pairwise distinct and all absent from the
cache appends them at the most-recent end and pops exactly the overflow from
the least-recently-used end. -/
theorem putList_fresh (ps : List (String × V)) (c : ImageCache V)
    (hnd : (ps.map Prod.fst).Nodup)
    (hfresh : ∀ x ∈ ps, x.1 ∉ c.cache.map Prod.fst)
    (hlen : c.cache.length ≤ c.max_size) :
    (putList c ps).cache =
      (c.cache ++ ps).drop (c.cache.length + ps.length - c.max_size) ∧
    (putList c ps).max_size = c.max_size := by
  induction ps generalizing c with
  | nil =>
    refine ⟨?_, rfl⟩
    show c.cache = _
    rw [List.append_nil, List.length_nil, Nat.add_zero,
      Nat.sub_eq_zero_of_le hlen, List.drop_zero]
  | cons p rest ih =>
    obtain ⟨k, v⟩ := p
    have hk : k ∉ c.cache.map Prod.fst := hfresh (k, v) (List.mem_cons_self _ _)
    have hlook : lookupEntry c.cache k = none := lookupEntry_eq_none.mpr hk
    have hstep : putList c ((k, v) :: rest) = putList (c.put k v) rest := rfl
    simp only [List.map_cons, List.nodup_cons] at hnd
    have hput := put_fresh_cache c k v hlook
    have hputms := put_max_size c k v
    have hfresh' : ∀ x ∈ rest, x.1 ∉ (c.put k v).cache.map Prod.fst := by
      intro x hx
      have hx1 : x.1 ∉ c.cache.map Prod.fst :=
        hfresh x (List.mem_cons_of_mem _ hx)
      have hx2 : x.1 ≠ k := by
        intro hcontra
        exact hnd.1 (hcontra ▸ List.mem_map_of_mem Prod.fst hx)
      intro hmem
      rw [hput] at hmem
      have hmem2 : x.1 ∈ (c.cache ++ [(k, v)]).map Prod.fst := by
        by_cases hc : c.max_size < c.cache.length + 1
        · rw [if_pos hc, List.map_drop] at hmem
          exact List.mem_of_mem_drop hmem
        · rwa [if_neg hc] at hmem
      simp only [List.map_append, List.mem_append, List.map_cons,
        List.map_nil, List.mem_cons, List.not_mem_nil, or_false] at hmem2
      rcases hmem2 with h1 | h2
      · exact hx1 h1
      · exact hx2 h2
    by_cases hc : c.max_size < c.cache.length + 1
    -- the cache is full: the head (LRU entry) is popped
    · have hlen' : (c.put k v).cache.length ≤ (c.put k v).max_size := by
        rw [hput, if_pos hc, hputms]
        simp only [List.length_drop, List.length_append, List.length_cons,
          List.length_nil]
        omega
      obtain ⟨ihc, ihms⟩ := ih (c.put k v) hnd.2 hfresh' hlen'
      refine ⟨?_, by rw [hstep, ihms, hputms]⟩
      rw [hstep, ihc, hput, hputms, if_pos hc]
      have hd1 : (c.cache ++ [(k, v)]).drop 1 ++ rest
          = ((c.cache ++ [(k, v)]) ++ rest).drop 1 :=
        (List.drop_append_of_le_length (by simp)).symm
      rw [hd1, List.drop_drop]
      have hA : (c.cache ++ [(k, v)]) ++ rest = c.cache ++ (k, v) :: rest := by
        simp
      rw [hA]
      congr 1
      simp only [List.length_drop, List.length_append, List.length_cons,
        List.length_nil]
      omega
    -- the cache still has room: the pair is simply appended
    · have hlen' : (c.put k v).cache.length ≤ (c.put k v).max_size := by
        rw [hput, if_neg hc, hputms]
        simp only [List.length_append, List.length_cons, List.length_nil]
        omega
      obtain ⟨ihc, ihms⟩ := ih (c.put k v) hnd.2 hfresh' hlen'
      refine ⟨?_, by rw [hstep, ihms, hputms]⟩
      rw [hstep, ihc, hput, hputms, if_neg hc]
      have hA : (c.cache ++ [(k, v)]) ++ rest = c.cache ++ (k, v) :: rest := by
        simp
      rw [hA]
      congr 1
      simp only [List.length_append, List.length_cons, List.length_nil]
      omega

theorem runOps_max_size (ops : List (CacheOp V)) (c : ImageCache V) :
    (runOps c ops).max_size = c.max_size := by
  induction ops generalizing c with
  | nil => rfl
  | cons op rest ih => rw [runOps, List.foldl_cons, ← runOps, ih, applyOp_max_size]

theorem lookupEntry_mem {d : List (String × V)} {k : String} {v : V}
    (h : lookupEntry d k = some v) : k ∈ d.map Prod.fst := by
  induction d with
  | nil => simp [lookupEntry] at h
  | cons p rest ih =>
    obtain ⟨k', w⟩ := p
    by_cases hk : k' = k
    · simp [hk]
    · simp only [lookupEntry, if_neg hk] at h
      simp [ih h]

theorem keys_filter_subset {d : List (String × V)} {f : String × V → Bool}
    {x : String} (h : x ∈ (d.filter f).map Prod.fst) : x ∈ d.map Prod.fst := by
  obtain ⟨q, hq, hx⟩ := List.mem_map.mp h
  exact hx ▸ List.mem_map_of_mem Prod.fst (List.mem_of_mem_filter hq)

theorem filter_beq_nil_of_notMem {A : List (String × V)} {p : String}
    (h : p ∉ A.map Prod.fst) : A.filter (fun q => q.1 == p) = [] := by
  induction A with
  | nil => rfl
  | cons q rest ih =>
    obtain ⟨k', v⟩ := q
    simp only [List.map_cons, List.mem_cons] at h
    push_neg at h
    have hne : ¬(k' = p) := fun hh => h.1 hh.symm
    simp [List.filter_cons, hne, ih h.2]

end CacheLemmas

/-!
## Claims about the decoded-image cache
-/

/-- C1: starting from an empty cache of capacity `N`, every sequence of
`get`/`put`/`clear` operations keeps the number of stored entries at most
`N`; a `put` of an absent key into a full cache drops exactly the head of
the recency list — the least-recently-used entry — and appends the new
pair; and putting `N + 1` pairwise-distinct keys into an empty cache leaves
exactly the last `N` of them, the evicted key being the first-inserted
(least recently touched) one. -/
theorem claim_C1_lru_capacity :
    (∀ (N : Nat) (ops : List (CacheOp Nat)),
      (runOps (ImageCache.mk N []) ops).cache.length ≤ N)
    ∧ (∀ (c : ImageCache Nat) (k : String) (v : Nat),
        lookupEntry c.cache k = none → c.cache.length = c.max_size →
        (c.put k v).cache = (c.cache ++ [(k, v)]).drop 1)
    ∧ (∀ (N : Nat) (ps : List (String × Nat)),
        (ps.map Prod.fst).Nodup → ps.length = N + 1 →
        (putList (ImageCache.mk N []) ps).cache = ps.drop 1 ∧
        (putList (ImageCache.mk N []) ps).cache.length = N) := by
  refine ⟨?_, ?_, ?_⟩
  · intro N ops
    have h := runOps_length_le ops (ImageCache.mk N []) (by simp)
    rwa [runOps_max_size] at h
  · intro c k v hfresh hfull
    rw [put_fresh_cache c k v hfresh, if_pos (by omega)]
  · intro N ps hnd hlen
    have h := putList_fresh ps (ImageCache.mk N []) hnd (by simp) (by simp)
    have h1 : (putList (ImageCache.mk N []) ps).cache = ps.drop 1 := by
      have hc := h.1
      simp only [List.nil_append] at hc
      rw [hc]
      congr 1
      simp only [List.length_nil]
      omega
    refine ⟨h1, ?_⟩
    rw [h1, List.length_drop]
    omega

/-- C1 witness: the three parts instantiated at capacity 2. -/
theorem claim_C1_lru_capacity_witness :
    (runOps (ImageCache.mk 2 ([] : List (String × Nat)))
      [CacheOp.put "a" 0, CacheOp.put "b" 1, CacheOp.get "a",
       CacheOp.put "c" 2]).cache.length ≤ 2
    ∧ ((ImageCache.mk 2 [("a", 0), ("b", 1)]).put "c" (2 : Nat)).cache
        = ([("a", 0), ("b", 1)] ++ [("c", 2)]).drop 1
    ∧ (putList (ImageCache.mk 2 ([] : List (String × Nat)))
        [("a", 0), ("b", 1), ("c", 2)]).cache
        = [("a", 0), ("b", 1), ("c", 2)].drop 1
    ∧ (putList (ImageCache.mk 2 ([] : List (String × Nat)))
        [("a", 0), ("b", 1), ("c", 2)]).cache.length = 2 :=
  ⟨claim_C1_lru_capacity.1 2 _,
   claim_C1_lru_capacity.2.1 _ "c" 2 (by decide) (by decide),
   (claim_C1_lru_capacity.2.2 2 _ (by decide) (by decide)).1,
   (claim_C1_lru_capacity.2.2 2 _ (by decide) (by decide)).2⟩

/-- C2 counterexample: with capacity 2 and the cache holding only `"k"`, a
`get "k"` (which promotes it) followed by `put`s of the 2 new distinct keys
`"a"`, `"b"` does evict `"k"` — the claim says it must not. -/
theorem claim_C2_counterexample :
    "k" ∉ (putList ((ImageCache.mk 2 [("k", (0 : Nat))]).get "k").2
      [("a", 1), ("b", 2)]).cache.map Prod.fst := by
  decide

/-- C2 (amended): after a `get` promotes a present key, inserting at most
`capacity - 1` new distinct keys does not evict it; the code evicts the
promoted key exactly on the `capacity`-th new insertion. -/
theorem claim_C2_promoted_key_survives :
    ∀ (c : ImageCache Nat) (k : String) (v : Nat) (ps : List (String × Nat)),
      lookupEntry c.cache k = some v →
      c.cache.length ≤ c.max_size →
      (ps.map Prod.fst).Nodup →
      (∀ x ∈ ps, x.1 ∉ c.cache.map Prod.fst) →
      ps.length + 1 ≤ c.max_size →
      k ∈ (putList ((c.get k).2) ps).cache.map Prod.fst := by
  intro c k v ps hk hlen hnd hfresh hcap
  have hget : (c.get k).2 =
      { c with cache := c.cache.filter (fun q => q.1 != k) ++ [(k, v)] } := by
    unfold ImageCache.get
    rw [hk]
  have hflt := filter_length_lt_of_lookup hk
  have hkmem := lookupEntry_mem hk
  have hfresh' : ∀ x ∈ ps,
      x.1 ∉ ((c.get k).2).cache.map Prod.fst := by
    intro x hx hmem
    rw [hget] at hmem
    simp only [List.map_append, List.mem_append, List.map_cons, List.map_nil,
      List.mem_cons, List.not_mem_nil, or_false] at hmem
    rcases hmem with h1 | h2
    · exact hfresh x hx (keys_filter_subset h1)
    · exact hfresh x hx (h2 ▸ hkmem)
  have hlen' : ((c.get k).2).cache.length ≤ ((c.get k).2).max_size := by
    rw [hget]
    simp only [List.length_append, List.length_cons, List.length_nil]
    omega
  obtain ⟨hres, hms⟩ := putList_fresh ps ((c.get k).2) hnd hfresh' hlen'
  rw [hres]
  rw [hget] at *
  simp only [List.length_append, List.length_cons, List.length_nil] at *
  set F := c.cache.filter (fun q => q.1 != k) with hF
  have hd : F.length + 1 + ps.length - c.max_size ≤ F.length := by omega
  rw [List.append_assoc, List.drop_append_of_le_length hd]
  simp

/-- C2 witness: capacity 2, cache `[("k", 0)]`, one new key. -/
theorem claim_C2_promoted_key_survives_witness :
    "k" ∈ (putList ((ImageCache.mk 2 [("k", (0 : Nat))]).get "k").2
      [("a", 1)]).cache.map Prod.fst :=
  claim_C2_promoted_key_survives (ImageCache.mk 2 [("k", 0)]) "k" 0
    [("a", 1)] (by decide) (by decide) (by decide)
    (by decide) (by decide)

/-- C3 counterexample: putting the same absent path twice (two completed
decodes of the same request) leaves one entry holding the FIRST value: the
second `put` only refreshes recency, so "the second result overwrites the
first" is false. -/
theorem claim_C3_counterexample :
    lookupEntry (((ImageCache.mk 10 ([] : List (String × Nat))).put "p" 1).put
      "p" 2).cache "p" = some 1 ∧
    lookupEntry (((ImageCache.mk 10 ([] : List (String × Nat))).put "p" 1).put
      "p" 2).cache "p" ≠ some 2 := by
  constructor
  · decide
  · decide

/-- C3 (amended): requesting the same absent path twice and completing both
decodes leaves exactly one cache entry for it, holding the first decode's
result (the second `put` is absorbed as a recency refresh — first writer
wins), with no crash or duplicate entry. -/
theorem claim_C3_double_put_single_entry :
    ∀ (c : ImageCache Nat) (p : String) (v₁ v₂ : Nat),
      lookupEntry c.cache p = none →
      c.cache.length ≤ c.max_size →
      1 ≤ c.max_size →
      lookupEntry ((c.put p v₁).put p v₂).cache p = some v₁ ∧
      (((c.put p v₁).put p v₂).cache.filter (fun q => q.1 == p)).length = 1 := by
  intro c p v₁ v₂ hfreshp hlen hmax
  have hput1 := put_fresh_cache c p v₁ hfreshp
  have hp_not : p ∉ c.cache.map Prod.fst := lookupEntry_eq_none.mp hfreshp
  obtain ⟨A, hA, hAnot⟩ :
      ∃ A, (c.put p v₁).cache = A ++ [(p, v₁)] ∧ p ∉ A.map Prod.fst := by
    by_cases hc : c.max_size < c.cache.length + 1
    · refine ⟨c.cache.drop 1, ?_, ?_⟩
      · rw [hput1, if_pos hc]
        exact List.drop_append_of_le_length (by omega)
      · intro hmem
        rw [List.map_drop] at hmem
        exact hp_not (List.mem_of_mem_drop hmem)
    · exact ⟨c.cache, by rw [hput1, if_neg hc], hp_not⟩
  have hlook1 : lookupEntry (c.put p v₁).cache p = some v₁ := by
    rw [hA, lookupEntry_append_of_notMem hAnot]
    simp [lookupEntry]
  have hput2 := put_hit_cache (c.put p v₁) p v₂ v₁ hlook1
  have hfilter : (c.put p v₁).cache.filter (fun q => q.1 != p) = A := by
    rw [hA, List.filter_append, filter_ne_of_notMem hAnot]
    simp [List.filter]
  constructor
  · rw [hput2, hfilter, lookupEntry_append_of_notMem hAnot]
    simp [lookupEntry]
  · rw [hput2, hfilter, List.filter_append, filter_beq_nil_of_notMem hAnot]
    simp [List.filter]

/-- C3 witness: the default capacity-10 cache, path `"p"`, values 1 then 2. -/
theorem claim_C3_double_put_single_entry_witness :
    lookupEntry (((ImageCache.mk 10 ([] : List (String × Nat))).put "p" 1).put
      "p" 2).cache "p" = some 1 ∧
    ((((ImageCache.mk 10 ([] : List (String × Nat))).put "p" 1).put
      "p" 2).cache.filter (fun q => q.1 == "p")).length = 1 :=
  claim_C3_double_put_single_entry (ImageCache.mk 10 []) "p" 1 2
    (by decide) (by decide) (by decide)

section NaturalKeyLemmas

/-- The token stream of `goSplit` alternates kinds, starting as the mode
flag says. -/
theorem goSplit_alt (cs : List Char) :
    ∀ (m : Bool) (acc : List Char), altFrom m (goSplit cs m acc) = true := by
  induction cs with
  | nil =>
    intro m acc
    cases m <;> simp [goSplit, altFrom]
  | cons c cs ih =>
    intro m acc
    cases m with
    | false =>
      by_cases hd : c.isDigit
      · simp only [goSplit, if_pos hd, altFrom]
        exact ih true [c]
      · simp only [goSplit, if_neg hd]
        exact ih false (c :: acc)
    | true =>
      by_cases hd : c.isDigit
      · simp only [goSplit, if_pos hd]
        exact ih true (c :: acc)
      · simp only [goSplit, if_neg hd, altFrom]
        exact ih false [c]

/-- In an alternating token stream, the token kind is determined by the
position's parity. -/
theorem alt_isStrTok :
    ∀ (ts : List NatToken) (m : Bool), altFrom m ts = true →
      ∀ (i : Nat) (h : i < ts.length),
        isStrTok (ts.get ⟨i, h⟩) = (decide (i % 2 = 0) != m) := by
  intro ts
  induction ts with
  | nil =>
    intro m _ i h
    simp at h
  | cons t ts ih =>
    intro m halt i h
    cases i with
    | zero =>
      cases m <;> cases t <;> simp_all [altFrom, isStrTok]
    | succ j =>
      have halt' : altFrom (!m) ts = true := by
        cases m <;> cases t <;> simp_all [altFrom]
      have hj : j < ts.length := by
        simp only [List.length_cons] at h
        omega
      have := ih (!m) halt' j hj
      simp only [List.get_cons_succ, this]
      by_cases hp : j % 2 = 0
      · have hp1 : ¬((j + 1) % 2 = 0) := by omega
        cases m <;> simp [hp, hp1]
      · have hp1 : (j + 1) % 2 = 0 := by omega
        cases m <;> simp [hp, hp1]

/-- Comparing two alternating token streams of the same starting kind never
reaches the mixed int/str comparison. -/
theorem cmpKey_isSome_of_alt :
    ∀ (as bs : List NatToken) (m : Bool), altFrom m as = true →
      altFrom m bs = true → (cmpKey as bs).isSome = true := by
  intro as
  induction as with
  | nil =>
    intro bs m _ _
    cases bs <;> simp [cmpKey]
  | cons a as ih =>
    intro bs m ha hb
    cases bs with
    | nil => simp [cmpKey]
    | cons b bs =>
      cases m with
      | false =>
        cases a with
        | num n => simp [altFrom] at ha
        | str sa =>
          cases b with
          | num n => simp [altFrom] at hb
          | str sb =>
            have ha' : altFrom true as = true := by simpa [altFrom] using ha
            have hb' : altFrom true bs = true := by simpa [altFrom] using hb
            cases hcmp : cmpCharList sa sb with
            | lt => simp [cmpKey, cmpTok, hcmp]
            | eq => simpa [cmpKey, cmpTok, hcmp] using ih bs true ha' hb'
            | gt => simp [cmpKey, cmpTok, hcmp]
      | true =>
        cases a with
        | str sa => simp [altFrom] at ha
        | num na =>
          cases b with
          | str sb => simp [altFrom] at hb
          | num nb =>
            have ha' : altFrom false as = true := by simpa [altFrom] using ha
            have hb' : altFrom false bs = true := by simpa [altFrom] using hb
            cases hcmp : cmpNat na nb with
            | lt => simp [cmpKey, cmpTok, hcmp]
            | eq => simpa [cmpKey, cmpTok, hcmp] using ih bs false ha' hb'
            | gt => simp [cmpKey, cmpTok, hcmp]

/-- Pushing a digit-free chunk through `goSplit` in text mode just extends
the accumulator. -/
theorem goSplit_text_append (p : List Char) :
    ∀ (r acc : List Char), (∀ c ∈ p, c.isDigit = false) →
      goSplit (p ++ r) false acc = goSplit r false (p.reverse ++ acc) := by
  induction p with
  | nil => intro r acc _; simp
  | cons c p ih =>
    intro r acc hp
    have hc : c.isDigit = false := hp c (List.mem_cons_self _ _)
    have hp' : ∀ x ∈ p, x.isDigit = false :=
      fun x hx => hp x (List.mem_cons_of_mem _ hx)
    have h1 : goSplit ((c :: p) ++ r) false acc
        = goSplit (p ++ r) false (c :: acc) := by
      simp [goSplit, hc]
    rw [h1, ih r (c :: acc) hp']
    simp

/-- Consuming an all-digit tail in digit mode produces one numeric token for
the whole run and the final empty string token. -/
theorem goSplit_digits (d : List Char) :
    ∀ (acc : List Char), (∀ c ∈ d, c.isDigit = true) →
      goSplit d true acc =
        [NatToken.num (digitsVal (acc.reverse ++ d)), NatToken.str []] := by
  induction d with
  | nil => intro acc _; simp [goSplit]
  | cons c d ih =>
    intro acc hd
    have hc : c.isDigit = true := hd c (List.mem_cons_self _ _)
    have hd' : ∀ x ∈ d, x.isDigit = true :=
      fun x hx => hd x (List.mem_cons_of_mem _ hx)
    simp only [goSplit, hc, if_true]
    rw [ih (c :: acc) hd']
    simp

/-- `natural_key` of "digit-free text followed by one digit run". -/
theorem natural_key_text_digits (p d : List Char)
    (hp : ∀ c ∈ p, c.isDigit = false) (hd0 : d ≠ [])
    (hd : ∀ c ∈ d, c.isDigit = true) :
    natural_key (String.mk (p ++ d)) =
      [NatToken.str p, NatToken.num (digitsVal d), NatToken.str []] := by
  show goSplit (p ++ d) false [] = _
  rw [goSplit_text_append p d [] hp]
  cases d with
  | nil => exact absurd rfl hd0
  | cons c d =>
    have hc : c.isDigit = true := hd c (List.mem_cons_self _ _)
    have hd' : ∀ x ∈ d, x.isDigit = true :=
      fun x hx => hd x (List.mem_cons_of_mem _ hx)
    simp only [goSplit, hc, if_true, List.append_nil]
    rw [goSplit_digits d [c] hd']
    simp

theorem cmpCharList_self (l : List Char) : cmpCharList l l = Ordering.eq := by
  induction l with
  | nil => rfl
  | cons c l ih =>
    simp [cmpCharList, cmpNat, ih]

end NaturalKeyLemmas

/-!
## Claims about the natural-order key
-/

/-- C6: sorting by the natural key orders `["a10","a2","a1"]` as
`["a1","a2","a10"]`, and in general two strings made of the same digit-free
text followed by digit runs compare exactly as the integer values of the
runs — digit runs compare numerically, the digit-free runs (compared
lexicographically) being equal here. -/
theorem claim_C6_natural_sort :
    sortByNatKey ["a10", "a2", "a1"] = ["a1", "a2", "a10"]
    ∧ (∀ (p d₁ d₂ : List Char),
        (∀ c ∈ p, c.isDigit = false) →
        d₁ ≠ [] → (∀ c ∈ d₁, c.isDigit = true) →
        d₂ ≠ [] → (∀ c ∈ d₂, c.isDigit = true) →
        cmpKey (natural_key (String.mk (p ++ d₁)))
            (natural_key (String.mk (p ++ d₂)))
          = some (cmpNat (digitsVal d₁) (digitsVal d₂))) := by
  constructor
  · decide
  · intro p d₁ d₂ hp h₁0 h₁ h₂0 h₂
    rw [natural_key_text_digits p d₁ hp h₁0 h₁,
      natural_key_text_digits p d₂ hp h₂0 h₂]
    simp only [cmpKey, cmpTok, cmpCharList_self]
    cases hv : cmpNat (digitsVal d₁) (digitsVal d₂) <;>
      simp [cmpKey, cmpTok, cmpCharList]

/-- C6 witness: `"a2"` versus `"a10"` — the numeric runs 2 and 10 decide. -/
theorem claim_C6_natural_sort_witness :
    cmpKey (natural_key (String.mk (['a'] ++ ['2'])))
        (natural_key (String.mk (['a'] ++ ['1', '0'])))
      = some (cmpNat (digitsVal ['2']) (digitsVal ['1', '0'])) :=
  claim_C6_natural_sort.2 ['a'] ['2'] ['1', '0'] (by decide) (by decide)
    (by decide) (by decide) (by decide)

/-- C10: every natural key alternates string tokens at even positions with
integer tokens at odd positions, and comparing the keys of any two strings
is always defined (`isSome`): the mixed int/str fallback is unreachable, so
sorting by this key cannot raise a comparison `TypeError`. -/
theorem claim_C10_key_shape_safe :
    (∀ (s : String) (i : Nat) (tok : NatToken),
      (natural_key s).get? i = some tok →
      isStrTok tok = decide (i % 2 = 0))
    ∧ (∀ s t : String, (cmpKey (natural_key s) (natural_key t)).isSome = true) := by
  constructor
  · intro s i tok hget
    obtain ⟨h, hval⟩ := List.get?_eq_some.mp hget
    have halt : altFrom false (natural_key s) = true := goSplit_alt s.data false []
    have := alt_isStrTok (natural_key s) false halt i h
    rw [hval] at this
    simpa using this
  · intro s t
    exact cmpKey_isSome_of_alt (natural_key s) (natural_key t) false
      (goSplit_alt s.data false []) (goSplit_alt t.data false [])

/-- C10 witness: the key of `"a1"` has a string token at position 0 and a
numeric token at position 1, and comparing with the key of `"b2"` is
defined. -/
theorem claim_C10_key_shape_safe_witness :
    isStrTok (NatToken.num 1) = decide (1 % 2 = 0)
    ∧ (cmpKey (natural_key "a1") (natural_key "b2")).isSome = true :=
  ⟨claim_C10_key_shape_safe.1 "a1" 1 (NatToken.num 1) (by decide),
   claim_C10_key_shape_safe.2 "a1" "b2"⟩

section GroupingLemmas

theorem addEntry_nil (k f : String) : addEntry [] k f = [(k, [f])] := rfl

theorem addEntry_cons (k2 : String) (fs : List String)
    (rest : List (String × List String)) (k f : String) :
    addEntry ((k2, fs) :: rest) k f =
      if k2 = k then (k2, fs ++ [f]) :: rest
      else (k2, fs) :: addEntry rest k f := rfl

theorem bucketOf_nil (k : String) : bucketOf [] k = [] := rfl

theorem bucketOf_cons (k2 : String) (fs : List String)
    (rest : List (String × List String)) (k : String) :
    bucketOf ((k2, fs) :: rest) k = if k2 = k then fs else bucketOf rest k := rfl

theorem keysOf_nil : keysOf [] = [] := rfl

theorem keysOf_cons (k2 : String) (fs : List String)
    (rest : List (String × List String)) :
    keysOf ((k2, fs) :: rest) = k2 :: keysOf rest := rfl

theorem bucketOf_addEntry (d : List (String × List String)) (k f k' : String) :
    bucketOf (addEntry d k f) k' =
      if k' = k then bucketOf d k' ++ [f] else bucketOf d k' := by
  induction d with
  | nil =>
    rw [addEntry_nil, bucketOf_cons, bucketOf_nil]
    by_cases h : k' = k
    · rw [if_pos h.symm, if_pos h]
      rfl
    · rw [if_neg (fun hh => h hh.symm), if_neg h]
  | cons p rest ih =>
    obtain ⟨k2, fs⟩ := p
    rw [addEntry_cons]
    by_cases h2 : k2 = k
    · rw [if_pos h2, bucketOf_cons, bucketOf_cons]
      by_cases h : k2 = k'
      · have hk : k' = k := h.symm.trans h2
        simp [h, hk]
      · have hk : ¬(k' = k) := fun hh => h (h2.trans hh.symm)
        simp [h, hk]
    · rw [if_neg h2, bucketOf_cons, bucketOf_cons]
      by_cases h : k2 = k'
      · have hk : ¬(k' = k) := fun hh => h2 (h.trans hh)
        simp [h, hk]
      · simp [h, ih]

theorem bucketOf_foldl (keyf : String → String) (fl : List String) :
    ∀ (d : List (String × List String)) (k : String),
      bucketOf (fl.foldl (fun d f => addEntry d (keyf f) f) d) k =
        bucketOf d k ++ fl.filter (fun f => keyf f == k) := by
  induction fl with
  | nil => intro d k; simp
  | cons f fl ih =>
    intro d k
    rw [List.foldl_cons, ih, bucketOf_addEntry]
    by_cases h : k = keyf f
    · rw [if_pos h, List.filter_cons, if_pos (by simp [h]), List.append_assoc]
      rfl
    · rw [if_neg h, List.filter_cons,
        if_neg (by simpa using fun hh => h (Eq.symm hh))]

theorem bucketOf_middle (fl : List String) (k : String) :
    bucketOf (get_middle_groups fl) k =
      fl.filter (fun f => extract_middle_number f == k) := by
  rw [get_middle_groups, groupByKey, bucketOf_foldl, bucketOf_nil,
    List.nil_append]

theorem keysOf_addEntry (d : List (String × List String)) (k f : String) :
    keysOf (addEntry d k f) =
      if k ∈ keysOf d then keysOf d else keysOf d ++ [k] := by
  induction d with
  | nil =>
    rw [addEntry_nil, keysOf_cons, keysOf_nil, if_neg (by simp)]
    rfl
  | cons p rest ih =>
    obtain ⟨k2, fs⟩ := p
    rw [addEntry_cons]
    by_cases h2 : k2 = k
    · rw [if_pos h2, keysOf_cons, keysOf_cons,
        if_pos (by rw [List.mem_cons]; exact Or.inl h2.symm)]
    · rw [if_neg h2, keysOf_cons, keysOf_cons, ih]
      by_cases hm : k ∈ keysOf rest
      · rw [if_pos hm, if_pos (by rw [List.mem_cons]; exact Or.inr hm)]
      · rw [if_neg hm,
          if_neg (by
            rw [List.mem_cons]
            exact not_or.mpr ⟨fun hh => h2 hh.symm, hm⟩)]
        rfl

theorem keysOf_addEntry_nodup {d : List (String × List String)}
    {k f : String} (h : (keysOf d).Nodup) :
    (keysOf (addEntry d k f)).Nodup := by
  rw [keysOf_addEntry]
  by_cases hmem : k ∈ keysOf d
  · rwa [if_pos hmem]
  · rw [if_neg hmem]
    simp [List.nodup_append, h, hmem]

theorem keysOf_groupByKey_nodup (keyf : String → String) (fl : List String) :
    (keysOf (groupByKey keyf fl)).Nodup := by
  rw [groupByKey]
  have hgen : ∀ d : List (String × List String), (keysOf d).Nodup →
      (keysOf (fl.foldl (fun d f => addEntry d (keyf f) f) d)).Nodup := by
    induction fl with
    | nil => intro d h; exact h
    | cons f fl ih =>
      intro d h
      rw [List.foldl_cons]
      exact ih _ (keysOf_addEntry_nodup h)
  exact hgen [] (by rw [keysOf_nil]; exact List.nodup_nil)

theorem keysOf_middle_nodup (fl : List String) :
    (keysOf (get_middle_groups fl)).Nodup :=
  keysOf_groupByKey_nodup extract_middle_number fl

theorem mem_keysOf_of_bucket_ne_nil :
    ∀ (d : List (String × List String)) (k : String),
      bucketOf d k ≠ [] → k ∈ keysOf d := by
  intro d
  induction d with
  | nil => intro k h; exact absurd rfl h
  | cons p rest ih =>
    intro k h
    obtain ⟨k2, fs⟩ := p
    rw [keysOf_cons]
    by_cases h2 : k2 = k
    · rw [h2]
      exact List.mem_cons_self _ _
    · rw [bucketOf_cons, if_neg h2] at h
      exact List.mem_cons_of_mem _ (ih k h)

theorem mem_eq_bucketOf {d : List (String × List String)}
    (hnd : (keysOf d).Nodup) {k : String} {b : List String}
    (hmem : (k, b) ∈ d) : bucketOf d k = b := by
  induction d with
  | nil => simp at hmem
  | cons p rest ih =>
    obtain ⟨k2, fs⟩ := p
    rw [keysOf_cons, List.nodup_cons] at hnd
    rcases List.mem_cons.mp hmem with heq | htail
    · injection heq with hk hb
      rw [bucketOf_cons, if_pos hk.symm, hb]
    · have hk2 : ¬(k2 = k) := by
        intro hcontra
        subst hcontra
        exact hnd.1 (List.mem_map_of_mem Prod.fst htail)
      rw [bucketOf_cons, if_neg hk2]
      exact ih hnd.2 htail

theorem sumLens_addEntry (d : List (String × List String)) (k f : String) :
    ((addEntry d k f).map (fun p => p.2.length)).sum =
      (d.map (fun p => p.2.length)).sum + 1 := by
  induction d with
  | nil => simp [addEntry_nil]
  | cons p rest ih =>
    obtain ⟨k2, fs⟩ := p
    rw [addEntry_cons]
    by_cases h2 : k2 = k
    · rw [if_pos h2]
      simp only [List.map_cons, List.sum_cons, List.length_append,
        List.length_cons, List.length_nil]
      omega
    · rw [if_neg h2]
      simp only [List.map_cons, List.sum_cons, ih]
      omega

theorem sumLens_groupByKey (keyf : String → String) (fl : List String) :
    ((groupByKey keyf fl).map (fun p => p.2.length)).sum = fl.length := by
  rw [groupByKey]
  have hgen : ∀ d : List (String × List String),
      ((fl.foldl (fun d f => addEntry d (keyf f) f) d).map
        (fun p => p.2.length)).sum =
      (d.map (fun p => p.2.length)).sum + fl.length := by
    induction fl with
    | nil => intro d; simp
    | cons f fl ih =>
      intro d
      rw [List.foldl_cons, ih, sumLens_addEntry]
      simp only [List.length_cons]
      omega
  simpa using hgen []

/-- Concatenating the buckets of a pairwise-distinct key list that covers
every element is a permutation of the original list. -/
theorem flatten_buckets_perm :
    ∀ (ks : List String) (fl : List String), ks.Nodup →
      (∀ f ∈ fl, extract_middle_number f ∈ ks) →
      ((ks.map (fun k =>
        fl.filter (fun f => extract_middle_number f == k))).flatten).Perm fl := by
  intro ks
  induction ks with
  | nil =>
    intro fl _ hcov
    have hnil : fl = [] := List.eq_nil_iff_forall_not_mem.mpr
      (fun f hf => by simpa using hcov f hf)
    simp [hnil]
  | cons k ks ih =>
    intro fl hnd hcov
    obtain ⟨hk, hnd'⟩ := List.nodup_cons.mp hnd
    set fl' := fl.filter (fun f => !(extract_middle_number f == k)) with hfl'
    have hswap : ∀ k2 ∈ ks,
        fl.filter (fun f => extract_middle_number f == k2) =
        fl'.filter (fun f => extract_middle_number f == k2) := by
      intro k2 hk2
      have hk2ne : k2 ≠ k := fun hcontra => hk (hcontra ▸ hk2)
      rw [hfl', List.filter_filter]
      refine (List.filter_congr ?_).symm
      intro f _
      by_cases hf : extract_middle_number f = k2
      · simp [hf, hk2ne]
      · simp [hf]
    have hmap : ks.map (fun k2 =>
          fl.filter (fun f => extract_middle_number f == k2)) =
        ks.map (fun k2 =>
          fl'.filter (fun f => extract_middle_number f == k2)) :=
      List.map_congr_left hswap
    have hcov' : ∀ f ∈ fl', extract_middle_number f ∈ ks := by
      intro f hf
      obtain ⟨hf1, hf2⟩ := List.mem_filter.mp hf
      rcases List.mem_cons.mp (hcov f hf1) with h | h
      · exact absurd (by simpa using h) (by simpa using hf2)
      · exact h
    have hperm' := ih fl' hnd' hcov'
    have h1 : ((k :: ks).map (fun k2 =>
        fl.filter (fun f => extract_middle_number f == k2))).flatten
        = fl.filter (fun f => extract_middle_number f == k) ++
          (ks.map (fun k2 =>
            fl'.filter (fun f => extract_middle_number f == k2))).flatten := by
      rw [List.map_cons, List.flatten_cons, hmap]
    rw [h1]
    exact (List.Perm.append_left _ hperm').trans (List.filter_append_perm _ fl)

end GroupingLemmas

/-!
## Claims about the grouping index
-/

/-- C7: `get_middle_groups` is a stable partition that neither drops nor
duplicates entries — the bucket lengths sum to the input length, and every
bucket equals the input filtered to its key (so members keep their relative
input order). -/
theorem claim_C7_stable_partition :
    ∀ fl : List String,
      ((get_middle_groups fl).map (fun p => p.2.length)).sum = fl.length
      ∧ (∀ p ∈ get_middle_groups fl,
          p.2 = fl.filter (fun f => extract_middle_number f == p.1)) := by
  intro fl
  refine ⟨sumLens_groupByKey extract_middle_number fl, ?_⟩
  intro p hp
  obtain ⟨k, b⟩ := p
  have h1 : bucketOf (get_middle_groups fl) k = b :=
    mem_eq_bucketOf (keysOf_middle_nodup fl) hp
  show b = fl.filter (fun f => extract_middle_number f == k)
  rw [← h1, bucketOf_middle]

/-- C7 witness: three files, two middle groups. -/
theorem claim_C7_stable_partition_witness :
    ((get_middle_groups ["x_1_a.png", "x_2_b.png", "x_1_c.png"]).map
      (fun p => p.2.length)).sum = 3
    ∧ ["x_1_a.png", "x_1_c.png"] =
        List.filter (fun f => extract_middle_number f == "1")
          ["x_1_a.png", "x_2_b.png", "x_1_c.png"] :=
  ⟨(claim_C7_stable_partition ["x_1_a.png", "x_2_b.png", "x_1_c.png"]).1,
   (claim_C7_stable_partition ["x_1_a.png", "x_2_b.png", "x_1_c.png"]).2
     ("1", ["x_1_a.png", "x_1_c.png"]) (by decide)⟩

/-- C5 counterexample: the three names `a_1.png`, `a_1_x.png`, `a_2.png`
form the single top group `"a"` of the scanned index and are already in
natural-key order, yet concatenating the middle buckets in natural
middle-key order gives `[a_1.png, a_2.png, a_1_x.png]` — not the top
group's ordered list. -/
theorem claim_C5_counterexample :
    sortByNatKey ["a_1.png", "a_1_x.png", "a_2.png"]
      = ["a_1.png", "a_1_x.png", "a_2.png"]
    ∧ scan_folder_groups ["a_1.png", "a_1_x.png", "a_2.png"]
      = [("a", ["a_1.png", "a_1_x.png", "a_2.png"])]
    ∧ middleConcat ["a_1.png", "a_1_x.png", "a_2.png"]
      ≠ ["a_1.png", "a_1_x.png", "a_2.png"] := by
  refine ⟨by decide, by decide, by decide⟩

/-- C5 (amended): concatenating the middle-group buckets in natural-key
ascending order of their middle keys yields a permutation of the top
group's file list — the same file names, though not always in the same
order. -/
theorem claim_C5_middle_concat_perm :
    ∀ fl : List String, (middleConcat fl).Perm fl := by
  intro fl
  have hbuckets : bucketOf (get_middle_groups fl) =
      fun k => fl.filter (fun f => extract_middle_number f == k) :=
    funext (bucketOf_middle fl)
  rw [middleConcat, hbuckets]
  apply flatten_buckets_perm
  · exact (List.perm_insertionSort keyLE _).nodup_iff.mpr
      (keysOf_middle_nodup fl)
  · intro f hf
    apply (List.perm_insertionSort keyLE _).mem_iff.mpr
    apply mem_keysOf_of_bucket_ne_nil
    rw [bucketOf_middle]
    intro hnil
    have hmem : f ∈ fl.filter
        (fun f2 => extract_middle_number f2 == extract_middle_number f) :=
      List.mem_filter.mpr ⟨hf, by simp⟩
    rw [hnil] at hmem
    simp at hmem

/-!
## Claims about the navigation cursor
-/

/-- C4 counterexample: with 2 top groups of 1 middle group and 1 file each,
stepping right from the last file of the last group does NOT wrap to the
first file of the first group (it stays at the last group's first file),
and stepping left from the first file does NOT wrap to the last group. -/
theorem claim_C4_counterexample :
    pressRight [[["a.png"]], [["b.png"]]] (Cursor.mk 1 0 0) ≠ Cursor.mk 0 0 0
    ∧ pressLeft [[["a.png"]], [["b.png"]]] (Cursor.mk 0 0 0) ≠ Cursor.mk 1 0 0 := by
  refine ⟨by decide, by decide⟩

/-- C4 (amended): at the outermost forward boundary the cursor wraps to the
first file of the current — last — middle group (left and middle selection
unchanged), and stepping backward from the very first position wraps to the
last file of the first top group's first middle group. -/
theorem claim_C4_boundary_wrap :
    (∀ (g : Groups) (s : Cursor),
      s.top + 1 = g.length →
      numMids g s.top ≤ s.mid + 1 →
      (filesAt g s.top s.mid).length ≤ s.idx + 1 →
      pressRight g s = Cursor.mk s.top s.mid 0)
    ∧ (∀ g : Groups,
      pressLeft g (Cursor.mk 0 0 0) =
        Cursor.mk 0 0 ((filesAt g 0 0).length - 1)) := by
  constructor
  · intro g s h1 h2 h3
    unfold pressRight move_to_next_middle_group move_to_next_left_group
    rw [if_pos h3, if_neg (by omega), if_neg (by omega)]
  · intro g
    unfold pressLeft move_to_prev_middle_group move_to_prev_left_group
    rw [if_pos rfl, if_neg (by decide), if_neg (by decide)]

/-- C4 witness: the amended wrap at the 2-top-group, 1-middle, 1-file
instance. -/
theorem claim_C4_boundary_wrap_witness :
    pressRight [[["a.png"]], [["b.png"]]] (Cursor.mk 1 0 0) = Cursor.mk 1 0 0
    ∧ pressLeft [[["a.png"]], [["b.png"]]] (Cursor.mk 0 0 0) =
        Cursor.mk 0 0 ((filesAt [[["a.png"]], [["b.png"]]] 0 0).length - 1) :=
  ⟨claim_C4_boundary_wrap.1 [[["a.png"]], [["b.png"]]] (Cursor.mk 1 0 0)
     (by decide) (by decide) (by decide),
   claim_C4_boundary_wrap.2 [[["a.png"]], [["b.png"]]]⟩

/-!
## Claims about the animation player
-/

/-- C8: on each timer fire the player advances the frame index to
`(index + 1) % len(frames)`, displays that frame and re-arms the timer with
that frame's own declared duration; on the 3-frame sequence with durations
`[50, 100, 150]` the index cycles 0 → 1 → 2 → 0 and the interval in effect
after displaying frame 2 is 150 (and after wrapping back to frame 0 it is
50). -/
theorem claim_C8_player_step :
    (∀ (P : Type) (p : ApngPlayer P) (f : P × Nat),
      p.frames.get? ((p.index + 1) % p.frames.length) = some f →
      next_apng_frame p =
        { p with index := (p.index + 1) % p.frames.length,
                 current := some f.1, interval := f.2 })
    ∧ (next_apng_frame
        (ApngPlayer.mk [(10, 50), (11, 100), (12, 150)] 0 (some 10) 50 true))
        = ApngPlayer.mk [(10, 50), (11, 100), (12, 150)] 1 (some 11) 100 true
    ∧ (next_apng_frame (next_apng_frame
        (ApngPlayer.mk [(10, 50), (11, 100), (12, 150)] 0 (some 10) 50 true)))
        = ApngPlayer.mk [(10, 50), (11, 100), (12, 150)] 2 (some 12) 150 true
    ∧ (next_apng_frame (next_apng_frame (next_apng_frame
        (ApngPlayer.mk [(10, 50), (11, 100), (12, 150)] 0 (some 10) 50 true))))
        = ApngPlayer.mk [(10, 50), (11, 100), (12, 150)] 0 (some 10) 50 true := by
  refine ⟨?_, rfl, rfl, rfl⟩
  intro P p f hget
  have hne : p.frames.isEmpty = false := by
    cases hfr : p.frames with
    | nil =>
      rw [hfr] at hget
      simp at hget
    | cons a l => rfl
  unfold next_apng_frame
  simp only [hne, Bool.false_eq_true, if_false]
  rw [hget]

/-- C8 witness: one step of the concrete 3-frame player. -/
theorem claim_C8_player_step_witness :
    next_apng_frame
        (ApngPlayer.mk [(10, 50), (11, 100), (12, 150)] 0 (some 10) 50 true)
      = ApngPlayer.mk [(10, 50), (11, 100), (12, 150)] 1 (some 11) 100 true :=
  claim_C8_player_step.1 Nat
    (ApngPlayer.mk [(10, 50), (11, 100), (12, 150)] 0 (some 10) 50 true)
    (11, 100) rfl

/-!
## Claims about the background preloader
-/

/-- C9 counterexample: a path that exists, is detected as an APNG, and whose
frame decode raises inside `_load_apng_frames` is a per-file decode failure,
yet the iteration both emits no event and prints NO log line — the claim's
"caught and logged" does not hold for failures swallowed inside the decode
helpers. -/
theorem claim_C9_counterexample :
    envApngRaise.fileExists "x.png" = true
    ∧ is_apng envApngRaise "x.png" = true
    ∧ load_apng_frames envApngRaise "x.png" = none
    ∧ process_item envApngRaise "x.png" = ([], []) := by
  refine ⟨rfl, rfl, rfl, rfl⟩

/-- C9 (amended): every popped path produces at most one event; a vanished
file is skipped silently; a successful decode (APNG or still) emits exactly
one `(path, result)` event; decode failures produce no event and are caught
inside the loop — but only an exception reaching the loop body's outer
handler is logged, failures swallowed inside the helpers are silent — and
the loop goes on to process every queued path regardless. -/
theorem claim_C9_worker_behavior :
    (∀ (env : PreloadEnv) (p : String), (process_item env p).1.length ≤ 1)
    ∧ (∀ (env : PreloadEnv) (p : String), env.fileExists p = false →
        process_item env p = ([], []))
    ∧ (∀ (env : PreloadEnv) (p : String) (fs : List (Nat × Nat)),
        env.fileExists p = true → env.extOf p = ".png" →
        is_apng env p = true → load_apng_frames env p = some fs →
        process_item env p = ([(p, Decoded.anim fs)], []))
    ∧ (∀ (env : PreloadEnv) (p : String),
        env.fileExists p = true → env.extOf p = ".png" →
        is_apng env p = true → load_apng_frames env p = none →
        process_item env p = ([], []))
    ∧ (∀ (env : PreloadEnv) (p : String),
        env.fileExists p = true →
        (env.extOf p == ".png" && is_apng env p) = false →
        env.pixmapRaises p = true →
        process_item env p = ([], ["image load error"]))
    ∧ (∀ (env : PreloadEnv) (p : String),
        env.fileExists p = true →
        (env.extOf p == ".png" && is_apng env p) = false →
        env.pixmapRaises p = false → env.pixmapNull p = true →
        process_item env p = ([], []))
    ∧ (∀ (env : PreloadEnv) (p : String),
        env.fileExists p = true →
        (env.extOf p == ".png" && is_apng env p) = false →
        env.pixmapRaises p = false → env.pixmapNull p = false →
        process_item env p = ([(p, Decoded.still (env.pixmapVal p))], []))
    ∧ (∀ (env : PreloadEnv) (ps : List String),
        run_worker env (ps.map some) =
          ((ps.map (fun p => (process_item env p).1)).flatten,
           (ps.map (fun p => (process_item env p).2)).flatten)) := by
  refine ⟨?_, ?_, ?_, ?_, ?_, ?_, ?_, ?_⟩
  · intro env p
    unfold process_item worker_body
    cases h1 : env.fileExists p with
    | false => simp [h1]
    | true =>
      simp only [h1, Bool.not_true, Bool.false_eq_true, if_false]
      cases h2 : (env.extOf p == ".png" && is_apng env p) with
      | true =>
        simp only [h2, if_true]
        cases load_apng_frames env p <;> simp
      | false =>
        simp only [h2, Bool.false_eq_true, if_false]
        cases h3 : env.pixmapRaises p <;>
          cases h4 : env.pixmapNull p <;> simp [h3, h4]
  · intro env p h1
    unfold process_item worker_body
    simp [h1]
  · intro env p fs h1 h2 h3 h4
    unfold process_item worker_body
    simp [h1, h2, h3, h4]
  · intro env p h1 h2 h3 h4
    unfold process_item worker_body
    simp [h1, h2, h3, h4]
  · intro env p h1 h2 h3
    unfold process_item worker_body
    simp [h1, h2, h3]
  · intro env p h1 h2 h3 h4
    unfold process_item worker_body
    simp [h1, h2, h3, h4]
  · intro env p h1 h2 h3 h4
    unfold process_item worker_body
    simp [h1, h2, h3, h4]
  · intro env ps
    induction ps with
    | nil => rfl
    | cons p ps ih =>
      simp only [List.map_cons, run_worker, ih, List.flatten_cons]

/-- C9 witness: a still image decodes to one event and no log; a vanished
file yields nothing. -/
theorem claim_C9_worker_behavior_witness :
    process_item envStillOk "a.jpg"
      = ([("a.jpg", Decoded.still (envStillOk.pixmapVal "a.jpg"))], [])
    ∧ (process_item envApngRaise "y.png").1.length ≤ 1 :=
  ⟨claim_C9_worker_behavior.2.2.2.2.2.2.1 envStillOk "a.jpg" rfl (by decide)
     rfl rfl,
   claim_C9_worker_behavior.1 envApngRaise "y.png"⟩

end ImageGroupNav
